import Mathlib

/-!
# Verification of the `anys-cid` core (`src/lib.rs`, `src/cid.rs`)

Shallow embedding of the CID construction engine and codec:

* byte sequences are `List Nat` (each element a `u8`, i.e. `< 256`; the bound is
  carried as a hypothesis where it matters);
* `u64`/`usize` arithmetic is `Nat` with an explicit `% 2 ^ 64` where the source
  can overflow;
* SHA-256 (`sha2::Sha256`, an external crate) is an abstract parameter
  `HF : List Nat → Hash`; every property proved here is structural and holds for
  an arbitrary hash function, with both sides of each equation using the same one;
* fallible operations return `Except CidDecodeError _`; operations that can
  panic in Rust (out-of-bounds `split_at` / `get_u8`) return `Option _`, with
  `none` standing for the panic.
-/

namespace AnysCid

/-- `pub const BLOCK_SIZE: usize = 16 * 1024;` (src/lib.rs). -/
def BLOCK_SIZE : Nat := 16 * 1024

/-- `pub type Hash = [u8; 32];` (src/lib.rs): a 32-byte hash, modelled as a list
of bytes; the length-32 invariant is stated where needed. -/
abbrev Hash := List Nat

/-- `Hash::default()`: the all-zero 32-byte array. -/
def zeroHash : Hash := List.replicate 32 0

/-- The CID value: `struct Inner { version: u8, size: u64, hash: Hash }` behind
an `Arc`.  Equality of `Cid` in Rust is derived field equality of `Inner`
(`Arc` is transparent to `PartialEq`), which the structure equality models. -/
structure Cid where
  version : Nat
  size : Nat
  hash : Hash
deriving DecidableEq, Repr

/-- `Cid::VERSION_RAW = b'A'` (0x41). -/
def VERSION_RAW : Nat := 65

/-- `enum CidDecodeError` from src/cid.rs. -/
inductive CidDecodeError where
  | unsupportedVersion (version : Nat)
  | invalidSize
  | invalidEncoding
  | invalidHash
deriving DecidableEq, Repr

/-- `struct CidBuilder`.  The `hasher: Sha256` field is modelled by the exact
list of bytes fed to the active hasher since its last reset; finalizing the
hasher applies the abstract hash function to that list. -/
structure CidBuilder where
  version : Nat
  size : Nat
  head : Nat
  hasher : List Nat
  leaves : List Hash
deriving DecidableEq, Repr

/-- `Cid::builder(version)`. -/
def Cid.builder (version : Nat) : CidBuilder :=
  { version := version, size := 0, head := 0, hasher := [], leaves := [] }

/-- `CidBuilder::set_version`. -/
def CidBuilder.set_version (b : CidBuilder) (version : Nat) : CidBuilder :=
  { b with version := version }

/-- The `while !data.is_empty()` loop of `CidBuilder::update`: consume
`n = min(data.len(), BLOCK_SIZE - head)` bytes into the active hasher, push a
leaf and reset the hasher when the block boundary is reached.

The `n = 0` early return is unreachable for the states the program constructs
(the builder invariant `head < BLOCK_SIZE` forces `n ≥ 1` whenever `data` is
nonempty); it is only present to make the recursion well-founded. -/
def updateLoop (HF : List Nat → Hash) (b : CidBuilder) (data : List Nat) :
    CidBuilder :=
  if _hne : data = [] then b
  else
    let n := min data.length (BLOCK_SIZE - b.head)
    if _hz : n = 0 then b
    else
      let left := data.take n
      let right := data.drop n
      let b' : CidBuilder := { b with hasher := b.hasher ++ left, head := b.head + n }
      if b'.head = BLOCK_SIZE then
        updateLoop HF
          { b' with head := 0, hasher := [],
                    leaves := b'.leaves ++ [HF b'.hasher] } right
      else
        updateLoop HF b' right
termination_by data.length
decreasing_by
  all_goals
    simp only [List.length_drop]
    omega

/-- `CidBuilder::update`: `self.size += data.len()` (u64, hence `% 2 ^ 64`),
then the block-filling loop. -/
def CidBuilder.update (HF : List Nat → Hash) (b : CidBuilder) (data : List Nat) :
    CidBuilder :=
  updateLoop HF { b with size := (b.size + data.length) % 2 ^ 64 } data

/-- Fuelled helper computing the least power of two that is `≥ n`
(`1` for `n ≤ 1`); fuel `n` always suffices. -/
def npotFuel : Nat → Nat → Nat
  | 0, _ => 1
  | f + 1, n => if n ≤ 1 then 1 else 2 * npotFuel f ((n + 1) / 2)

/-- `usize::next_power_of_two` (Rust standard library): the smallest power of
two `≥ n`, with `next_power_of_two 0 = 1`.  Modelled structurally with fuel so
that it evaluates in the kernel; the u64 overflow case (`n > 2 ^ 63`) is outside
the range any leaf count can reach. -/
def next_power_of_two (n : Nat) : Nat := npotFuel n n

/-- `Vec::resize_with(target, Hash::default)`: pad with all-zero hashes up to
`target`, or truncate down to it. -/
def resizeWith (l : List Hash) (target : Nat) : List Hash :=
  if l.length ≤ target then l ++ List.replicate (target - l.length) zeroHash
  else l.take target

/-- The reduction loop of `get_root`: `for i in (0..size-1).rev()` sets
`hashes[i] = H(hashes[2i+1] || hashes[2i+2])`.  `reduceLoop HF hs k` processes
indices `k-1, k-2, …, 0` (so the initial call has `k = size - 1`). -/
def reduceLoop (HF : List Nat → Hash) (hashes : List Hash) : Nat → List Hash
  | 0 => hashes
  | i + 1 =>
    reduceLoop HF
      (hashes.set i (HF (hashes.getD (2 * i + 1) zeroHash ++
                         hashes.getD (2 * i + 2) zeroHash))) i

/-- `fn get_root(leaves: &[Hash]) -> Hash` (src/cid.rs): flat-array Merkle
reduction over `next_power_of_two(n)` leaf slots. -/
def get_root (HF : List Nat → Hash) (leaves : List Hash) : Hash :=
  let size := next_power_of_two leaves.length
  let hashes := resizeWith [] (size - 1)
  let hashes := hashes ++ leaves
  let hashes := resizeWith hashes (size * 2 - 1)
  (reduceLoop HF hashes (size - 1)).getD 0 zeroHash

/-- `CidBuilder::finalize`. -/
def CidBuilder.finalize (HF : List Nat → Hash) (b : CidBuilder) : Cid :=
  let leaves := if b.head ≠ 0 then b.leaves ++ [HF b.hasher] else b.leaves
  { version := b.version, size := b.size, hash := get_root HF leaves }

/-- `put_u64_varint` (crate `bytes-varint`): unsigned LEB128, 7 data bits per
byte, continuation bit `0x80`, little-endian groups. -/
def putUvarint (n : Nat) : List Nat :=
  if n < 128 then [n] else (n % 128 + 128) :: putUvarint (n / 128)
termination_by n
decreasing_by
  exact Nat.div_lt_self (by omega) (by omega)

/-- `get_u64_varint` (crate `bytes-varint`), protobuf-style decoding into a
`u64` accumulator (`result |= (byte & 0x7f) << shift`, modelled as addition of
the disjoint 7-bit group with an explicit `% 2 ^ 64`).  `none` covers both of
the crate's error cases: buffer underflow (truncated varint) and numeric
overflow (`shift` would pass 64 with the continuation bit still set); the
caller maps both to `InvalidSize`.  Returns the decoded value and the unread
remainder of the buffer. -/
def getUvarint : List Nat → Nat → Nat → Option (Nat × List Nat)
  | [], _, _ => none
  | byte :: rest, shift, acc =>
    let acc' := (acc + byte % 128 * 2 ^ shift) % 2 ^ 64
    if byte % 256 < 128 then some (acc', rest)
    else if 64 ≤ shift + 7 then none
    else getUvarint rest (shift + 7) acc'

/-- `Cid::from_version_and_buf`. -/
def Cid.from_version_and_buf (version : Nat) (buf : List Nat) :
    Except CidDecodeError Cid :=
  if version ≠ VERSION_RAW then .error (.unsupportedVersion version)
  else
    match getUvarint buf 0 0 with
    | none => .error .invalidSize
    | some (size, rest) =>
      if rest.length ≠ 32 then .error .invalidHash
      else .ok { version := version, size := size, hash := rest }

/-- `Cid::from_bytes`: `bytes.split_at(1)` panics on the empty slice, modelled
as `none`. -/
def Cid.from_bytes (bytes : List Nat) : Option (Except CidDecodeError Cid) :=
  match bytes with
  | [] => none
  | v :: rest => some (Cid.from_version_and_buf v rest)

/-- `Cid::decode`: `buf.get_u8()` panics on an empty buffer, modelled as
`none`. -/
def Cid.decode (buf : List Nat) : Option (Except CidDecodeError Cid) :=
  match buf with
  | [] => none
  | v :: rest => some (Cid.from_version_and_buf v rest)

/-- `Cid::encode`: version byte, LEB128 size, raw hash. -/
def Cid.encode (c : Cid) : List Nat :=
  c.version :: (putUvarint c.size ++ c.hash)

/-- `Cid::to_bytes`. -/
def Cid.to_bytes (c : Cid) : List Nat := c.encode

/-- The Bitcoin base-58 alphabet of the `bs58` crate, as ASCII codes: the 58
characters `123456789ABCDEFGHJKLMNPQRSTUVWXYZabcdefghijkmnopqrstuvwxyz`
(digits and letters without `0`, `I`, `O`, `l`), written as numerals so the
kernel can evaluate it. -/
def b58Alphabet : List Nat :=
  [49, 50, 51, 52, 53, 54, 55, 56, 57,
   65, 66, 67, 68, 69, 70, 71, 72, 74, 75, 76, 77, 78, 80, 81, 82, 83, 84,
   85, 86, 87, 88, 89, 90,
   97, 98, 99, 100, 101, 102, 103, 104, 105, 106, 107, 109, 110, 111, 112,
   113, 114, 115, 116, 117, 118, 119, 120, 121, 122]

/-- Position of a character code in a list (first occurrence). -/
def b58IndexAux : List Nat → Nat → Option Nat
  | [], _ => none
  | a :: r, c => if a = c then some 0 else (b58IndexAux r c).map (· + 1)

/-- Digit value of a character in the base-58 alphabet (`none`: invalid
character). -/
def b58Index (c : Nat) : Option Nat := b58IndexAux b58Alphabet c

/-- Map every character of a base-58 string to its digit value; `none` as soon
as any character is invalid (the `bs58` decode error). -/
def b58Vals : List Nat → Option (List Nat)
  | [] => some []
  | c :: r =>
    match b58Index c, b58Vals r with
    | some v, some vs => some (v :: vs)
    | _, _ => none

/-- Number of leading zeros of a list (leading `0x00` bytes for the encoder,
leading `'1'` digits for the decoder). -/
def czeros : List Nat → Nat
  | [] => 0
  | a :: r => if a = 0 then czeros r + 1 else 0

/-- `bs58::encode` (Bitcoin alphabet): each leading zero byte becomes `'1'`
(ASCII 49); the remaining big-endian base-256 number is rewritten in big-endian
base 58 and mapped through the alphabet. -/
def b58Encode (input : List Nat) : List Nat :=
  let z := czeros input
  let n := Nat.ofDigits 256 input.reverse
  List.replicate z 49 ++ (Nat.digits 58 n).reverse.map (fun d => b58Alphabet.getD d 0)

/-- `bs58::decode … .into_vec()`: `none` on any character outside the alphabet;
otherwise leading `'1'` digits become zero bytes and the remaining base-58
number is rewritten in big-endian base 256. -/
def b58Decode (s : List Nat) : Option (List Nat) :=
  (b58Vals s).map fun vals =>
    let z := czeros vals
    let n := Nat.ofDigits 58 vals.reverse
    List.replicate z 0 ++ (Nat.digits 256 n).reverse

/-- UTF-8 encoding of `f.write_char(version as char)` for a code point `< 256`:
one byte below 0x80, otherwise the two-byte sequence. -/
def utf8Char (v : Nat) : List Nat :=
  if v < 128 then [v] else [192 + v / 64, 128 + v % 64]

/-- `impl Display for Cid`: the version character followed by the base-58
encoding of `varint(size) || hash`; the result is the UTF-8 byte sequence of
the produced string. -/
def Cid.to_string (c : Cid) : List Nat :=
  utf8Char c.version ++ b58Encode (putUvarint c.size ++ c.hash)

/-- `impl FromStr for Cid`.  `s.split_at(1)` panics (`none`) on the empty
string and whenever byte index 1 is not a character boundary, i.e. whenever the
first byte opens a multi-byte UTF-8 character. -/
def Cid.from_string (s : List Nat) : Option (Except CidDecodeError Cid) :=
  match s with
  | [] => none
  | c :: rest =>
    if 128 ≤ c then none
    else some (match b58Decode rest with
      | none => .error .invalidEncoding
      | some buf => Cid.from_version_and_buf c buf)

/-- Modelled from the claim's words (C1): the hash of node `i` of a complete
binary tree stored as a flat array whose leaf layer is `L` (of length `m`),
where parent `i` has children `2i+1` and `2i+2`, every internal node hashes the
concatenation of its children's hashes, and the leaf at array index
`i ≥ m - 1` is `L[i - (m-1)]`. -/
def treeNodeHash (HF : List Nat → Hash) (m : Nat) (L : List Hash) (i : Nat) :
    Hash :=
  if i + 1 < m then
    treeNodeHash HF m L (2 * i + 1) ++ treeNodeHash HF m L (2 * i + 2) |> HF
  else L.getD (i - (m - 1)) zeroHash
termination_by m - i
decreasing_by
  all_goals omega

/-- Modelled from the claim's words (C1): the root of the tree whose `m =
next_power_of_two n` leaf slots are `m - n` all-zero hashes (left-padding)
followed by the `n` real leaves. -/
def claimRootLeftPadded (HF : List Nat → Hash) (leaves : List Hash) : Hash :=
  let m := next_power_of_two leaves.length
  treeNodeHash HF m (List.replicate (m - leaves.length) zeroHash ++ leaves) 0

/-- Byte-at-a-time reformulation of the update loop, used in proofs: feed one
byte to the active hasher, and close the block when it reaches `BLOCK_SIZE`. -/
def stepByte (HF : List Nat → Hash) (b : CidBuilder) (a : Nat) : CidBuilder :=
  let b' : CidBuilder := { b with hasher := b.hasher ++ [a], head := b.head + 1 }
  if b'.head = BLOCK_SIZE then
    { b' with head := 0, hasher := [], leaves := b'.leaves ++ [HF b'.hasher] }
  else b'

/-- One caller-visible builder operation (for the version-independence
hyperproperty): an `update` call or a `set_version` call. -/
inductive BuildOp where
  | update (data : List Nat)
  | setVersion (version : Nat)
deriving DecidableEq, Repr

/-- Apply one builder operation. -/
def applyOp (HF : List Nat → Hash) (b : CidBuilder) : BuildOp → CidBuilder
  | .update data => b.update HF data
  | .setVersion v => b.set_version v

/-- Apply a sequence of builder operations in order. -/
def applyOps (HF : List Nat → Hash) (b : CidBuilder) (ops : List BuildOp) :
    CidBuilder :=
  ops.foldl (applyOp HF) b

/-- The update payloads of an operation sequence, in order. -/
def updatesOf (ops : List BuildOp) : List (List Nat) :=
  ops.filterMap fun op =>
    match op with
    | .update data => some data
    | .setVersion _ => none

/-- Concrete hash function used in counterexamples: the first 32 bytes of the
input (for a 64-byte concatenation of children, the left child's hash). -/
def projHash (l : List Nat) : Hash := l.take 32

/-- The all-ones 32-byte hash, used as a distinguishable leaf in
counterexamples. -/
def oneHash : Hash := List.replicate 32 1

/-- The four builder fields that determine everything except the version tag:
size, block cursor, active-hasher contents and completed leaves (proof
device). -/
def coreState (b : CidBuilder) : Nat × Nat × List Nat × List Hash :=
  (b.size, b.head, b.hasher, b.leaves)

end AnysCid

namespace AnysCid

/-! ## Varint lemmas -/

theorem putUvarint_ne_nil (n : Nat) : putUvarint n ≠ [] := by
  rw [putUvarint]
  split <;> simp

theorem putUvarint_bytes (n : Nat) : ∀ b ∈ putUvarint n, b < 256 := by
  induction n using Nat.strong_induction_on with
  | _ n ih =>
    rw [putUvarint]
    split
    · intro b hb
      simp only [List.mem_singleton] at hb
      omega
    · intro b hb
      simp only [List.mem_cons] at hb
      rcases hb with h | h
      · omega
      · exact ih (n / 128) (Nat.div_lt_self (by omega) (by omega)) b h

theorem putUvarint_length_le (k : Nat) :
    ∀ n, n < 128 ^ k → (putUvarint n).length ≤ max k 1 := by
  induction k with
  | zero =>
    intro n hn
    simp only [pow_zero] at hn
    have hn0 : n = 0 := by omega
    subst hn0
    rw [putUvarint]
    simp
  | succ k ih =>
    intro n hn
    rw [putUvarint]
    split
    · simp [Nat.le_max_right]
    · rename_i h128
      simp only [List.length_cons]
      have hdiv : n / 128 < 128 ^ k := by
        rw [Nat.div_lt_iff_lt_mul (by norm_num)]
        calc n < 128 ^ (k + 1) := hn
          _ = 128 ^ k * 128 := by rw [pow_succ]
      have hk1 : 1 ≤ k := by
        by_contra hk
        have hk0 : k = 0 := by omega
        subst hk0
        norm_num at hn
        omega
      have := ih (n / 128) hdiv
      omega

/-- Decoding inverts encoding: reading a LEB128-encoded value consumes exactly
its bytes and returns the value, for any accumulator state reachable by the
decoder. -/
theorem getUvarint_putUvarint (rest : List Nat) (n : Nat) :
    ∀ k acc, 7 * k ≤ 63 → n < 2 ^ (64 - 7 * k) → acc < 2 ^ (7 * k) →
      getUvarint (putUvarint n ++ rest) (7 * k) acc =
        some (acc + n * 2 ^ (7 * k), rest) := by
  induction n using Nat.strong_induction_on with
  | _ n ih =>
    intro k acc hs hn ha
    rw [putUvarint]
    by_cases h128 : n < 128
    · simp only [if_pos h128, List.cons_append, getUvarint]
      have hm1 : n % 256 = n := Nat.mod_eq_of_lt (by omega)
      have hm2 : n % 128 = n := Nat.mod_eq_of_lt h128
      rw [hm1, hm2, if_pos h128]
      have hlt : acc + n * 2 ^ (7 * k) < 2 ^ 64 := by
        calc acc + n * 2 ^ (7 * k) < 2 ^ (7 * k) + n * 2 ^ (7 * k) :=
              Nat.add_lt_add_right ha _
          _ = (n + 1) * 2 ^ (7 * k) := by ring
          _ ≤ 2 ^ (64 - 7 * k) * 2 ^ (7 * k) :=
              Nat.mul_le_mul_right _ (Nat.succ_le_of_lt hn)
          _ = 2 ^ 64 := by rw [← pow_add]; congr 1; omega
      rw [Nat.mod_eq_of_lt hlt, List.nil_append]
    · have hk8 : k ≤ 8 := by
        rcases Nat.lt_or_ge k 9 with h | h
        · omega
        · have hk9 : k = 9 := by omega
          subst hk9
          norm_num at hn
          omega
      simp only [if_neg h128, List.cons_append, getUvarint]
      have hb1 : (n % 128 + 128) % 256 = n % 128 + 128 := Nat.mod_eq_of_lt (by omega)
      have hb2 : ¬ n % 128 + 128 < 128 := by omega
      have hb3 : (n % 128 + 128) % 128 = n % 128 := by omega
      have hb4 : ¬ 64 ≤ 7 * k + 7 := by omega
      rw [hb1]
      simp only [if_neg hb2, hb3, if_neg hb4]
      have e7 : (2 : Nat) ^ (7 * k + 7) = 2 ^ (7 * k) * 128 := by
        rw [pow_add]; norm_num
      have hacc' : acc + n % 128 * 2 ^ (7 * k) < 2 ^ (7 * k + 7) := by
        have : n % 128 ≤ 127 := by omega
        calc acc + n % 128 * 2 ^ (7 * k)
            < 2 ^ (7 * k) + 127 * 2 ^ (7 * k) := by
              have := Nat.mul_le_mul_right (2 ^ (7 * k)) this
              omega
          _ = 2 ^ (7 * k) * 128 := by ring
          _ = 2 ^ (7 * k + 7) := e7.symm
      have hacc64 : acc + n % 128 * 2 ^ (7 * k) < 2 ^ 64 := by
        calc acc + n % 128 * 2 ^ (7 * k) < 2 ^ (7 * k + 7) := hacc'
          _ ≤ 2 ^ 64 := Nat.pow_le_pow_right (by omega) (by omega)
      rw [Nat.mod_eq_of_lt hacc64]
      have hstep : 7 * k + 7 = 7 * (k + 1) := by ring
      have hdivlt : n / 128 < 2 ^ (64 - 7 * (k + 1)) := by
        rw [Nat.div_lt_iff_lt_mul (by norm_num)]
        calc n < 2 ^ (64 - 7 * k) := hn
          _ = 2 ^ (64 - 7 * (k + 1)) * 128 := by
              rw [show (128 : Nat) = 2 ^ 7 by norm_num, ← pow_add]
              congr 1
              omega
      rw [hstep]
      rw [ih (n / 128) (Nat.div_lt_self (by omega) (by omega)) (k + 1)
        (acc + n % 128 * 2 ^ (7 * k)) (by omega) hdivlt
        (by rw [← hstep]; exact hacc')]
      congr 2
      have hd : n % 128 + 128 * (n / 128) = n := by omega
      calc acc + n % 128 * 2 ^ (7 * k) + n / 128 * 2 ^ (7 * (k + 1))
          = acc + (n % 128 + 128 * (n / 128)) * 2 ^ (7 * k) := by
            rw [← hstep, e7]; ring
        _ = acc + n * 2 ^ (7 * k) := by rw [hd]

/-- The instantiation actually used by the codec: from a fresh decoder state,
the varint bytes of any `u64` value decode back to it, leaving the rest of the
buffer untouched. -/
theorem getUvarint_putUvarint_zero (n : Nat) (rest : List Nat) (h : n < 2 ^ 64) :
    getUvarint (putUvarint n ++ rest) 0 0 = some (n, rest) := by
  have := getUvarint_putUvarint rest n 0 0 (by omega) (by simpa using h)
    (by norm_num)
  simpa using this

end AnysCid

namespace AnysCid

/-! ## Builder lemmas

The update loop consumes `min (data.length) (BLOCK_SIZE - head)` bytes per
iteration; `stepByte` consumes one byte.  For every state satisfying the
builder invariant `head < BLOCK_SIZE` the two agree, which turns chunking
questions into `List.foldl` algebra. -/

theorem stepByte_head_lt (HF : List Nat → Hash) (b : CidBuilder) (a : Nat)
    (h : b.head < BLOCK_SIZE) : (stepByte HF b a).head < BLOCK_SIZE := by
  have hbs : BLOCK_SIZE = 16384 := by norm_num [BLOCK_SIZE]
  simp only [stepByte]
  split
  · simp only
    omega
  · rename_i hne
    simp only at hne ⊢
    omega

theorem stepByte_head_mod (HF : List Nat → Hash) (b : CidBuilder) (a : Nat)
    (h : b.head < BLOCK_SIZE) :
    (stepByte HF b a).head = (b.head + 1) % BLOCK_SIZE := by
  simp only [stepByte]
  split
  · rename_i he
    simp only at he ⊢
    rw [he, Nat.mod_self]
  · rename_i hne
    simp only at hne ⊢
    rw [Nat.mod_eq_of_lt (by omega)]

theorem stepByte_size (HF : List Nat → Hash) (b : CidBuilder) (a : Nat) :
    (stepByte HF b a).size = b.size := by
  simp only [stepByte]
  split <;> rfl

theorem stepByte_version (HF : List Nat → Hash) (b : CidBuilder) (a : Nat) :
    (stepByte HF b a).version = b.version := by
  simp only [stepByte]
  split <;> rfl

theorem stepByte_set_size (HF : List Nat → Hash) (b : CidBuilder) (a s : Nat) :
    stepByte HF { b with size := s } a = { stepByte HF b a with size := s } := by
  simp only [stepByte]
  split <;> rfl

theorem stepByte_set_version (HF : List Nat → Hash) (b : CidBuilder) (a w : Nat) :
    stepByte HF { b with version := w } a =
      { stepByte HF b a with version := w } := by
  simp only [stepByte]
  split <;> rfl

/-- One unfolding of the chunked loop equals one `stepByte` under the builder
invariant. -/
theorem updateLoop_cons (HF : List Nat → Hash) (b : CidBuilder) (a : Nat)
    (rest : List Nat) (h : b.head < BLOCK_SIZE) :
    updateLoop HF b (a :: rest) = updateLoop HF (stepByte HF b a) rest := by
  have hbs : BLOCK_SIZE = 16384 := by norm_num [BLOCK_SIZE]
  rcases Nat.lt_or_ge (b.head + 1) BLOCK_SIZE with hlt | hge
  · -- the step does not close a block
    have hne : ¬ b.head + 1 = BLOCK_SIZE := by omega
    cases rest with
    | nil =>
      have hn : min (a :: ([] : List Nat)).length (BLOCK_SIZE - b.head) = 1 := by
        simp only [List.length_cons, List.length_nil]
        omega
      rw [updateLoop]
      simp only [reduceCtorEq, ↓reduceDIte, hn, one_ne_zero, List.take_succ_cons,
        List.take_zero, List.drop_succ_cons, List.drop_zero, if_neg hne]
      simp only [stepByte, if_neg hne]
    | cons r rs =>
      simp only [stepByte, if_neg hne]
      rw [updateLoop]
      conv_rhs => rw [updateLoop]
      simp only [reduceCtorEq, ↓reduceDIte, List.length_cons]
      have e1 : min (rs.length + 1 + 1) (BLOCK_SIZE - b.head) =
          min (rs.length + 1) (BLOCK_SIZE - (b.head + 1)) + 1 := by omega
      rw [e1]
      have hx1 : 1 ≤ min (rs.length + 1) (BLOCK_SIZE - (b.head + 1)) := by omega
      rw [dif_neg (by omega :
            ¬ min (rs.length + 1) (BLOCK_SIZE - (b.head + 1)) + 1 = 0),
          dif_neg (by omega :
            ¬ min (rs.length + 1) (BLOCK_SIZE - (b.head + 1)) = 0)]
      simp only [List.take_succ_cons, List.drop_succ_cons]
      have e5 : b.hasher ++
            a :: List.take (min (rs.length + 1) (BLOCK_SIZE - (b.head + 1))) (r :: rs) =
          b.hasher ++ [a] ++
            List.take (min (rs.length + 1) (BLOCK_SIZE - (b.head + 1))) (r :: rs) := by
        simp
      have e6 : b.head + (min (rs.length + 1) (BLOCK_SIZE - (b.head + 1)) + 1) =
          b.head + 1 + min (rs.length + 1) (BLOCK_SIZE - (b.head + 1)) := by omega
      rw [e5, e6]
  · -- the step closes the current block
    have heq : b.head + 1 = BLOCK_SIZE := by omega
    have hn : min (a :: rest).length (BLOCK_SIZE - b.head) = 1 := by
      simp only [List.length_cons]
      omega
    rw [updateLoop]
    simp only [reduceCtorEq, ↓reduceDIte, hn, one_ne_zero, List.take_succ_cons,
      List.take_zero, List.drop_succ_cons, List.drop_zero, if_pos heq]
    simp [stepByte, if_pos heq]

theorem updateLoop_eq_foldl (HF : List Nat → Hash) (data : List Nat) :
    ∀ b : CidBuilder, b.head < BLOCK_SIZE →
      updateLoop HF b data = data.foldl (stepByte HF) b := by
  induction data with
  | nil =>
    intro b _
    rw [updateLoop]
    simp
  | cons a rest ih =>
    intro b h
    rw [updateLoop_cons HF b a rest h, List.foldl_cons,
      ih _ (stepByte_head_lt HF b a h)]

theorem foldl_stepByte_head_lt (HF : List Nat → Hash) (l : List Nat) :
    ∀ b : CidBuilder, b.head < BLOCK_SIZE →
      (l.foldl (stepByte HF) b).head < BLOCK_SIZE := by
  induction l with
  | nil => intro b h; exact h
  | cons a rest ih =>
    intro b h
    exact ih _ (stepByte_head_lt HF b a h)

theorem foldl_stepByte_size (HF : List Nat → Hash) (l : List Nat) :
    ∀ b : CidBuilder, (l.foldl (stepByte HF) b).size = b.size := by
  induction l with
  | nil => intro b; rfl
  | cons a rest ih =>
    intro b
    rw [List.foldl_cons, ih, stepByte_size]

theorem foldl_stepByte_version (HF : List Nat → Hash) (l : List Nat) :
    ∀ b : CidBuilder, (l.foldl (stepByte HF) b).version = b.version := by
  induction l with
  | nil => intro b; rfl
  | cons a rest ih =>
    intro b
    rw [List.foldl_cons, ih, stepByte_version]

theorem foldl_stepByte_set_size (HF : List Nat → Hash) (l : List Nat) :
    ∀ (b : CidBuilder) (s : Nat),
      l.foldl (stepByte HF) { b with size := s } =
        { l.foldl (stepByte HF) b with size := s } := by
  induction l with
  | nil => intro b s; rfl
  | cons a rest ih =>
    intro b s
    rw [List.foldl_cons, stepByte_set_size, ih, List.foldl_cons]

theorem foldl_stepByte_set_version (HF : List Nat → Hash) (l : List Nat) :
    ∀ (b : CidBuilder) (w : Nat),
      l.foldl (stepByte HF) { b with version := w } =
        { l.foldl (stepByte HF) b with version := w } := by
  induction l with
  | nil => intro b w; rfl
  | cons a rest ih =>
    intro b w
    rw [List.foldl_cons, stepByte_set_version, ih, List.foldl_cons]


theorem foldl_stepByte_head_mod (HF : List Nat → Hash) (l : List Nat) :
    ∀ b : CidBuilder, b.head < BLOCK_SIZE →
      (l.foldl (stepByte HF) b).head = (b.head + l.length) % BLOCK_SIZE := by
  have hbs : BLOCK_SIZE = 16384 := by norm_num [BLOCK_SIZE]
  induction l with
  | nil =>
    intro b h
    simp only [List.foldl_nil, List.length_nil, Nat.add_zero]
    rw [Nat.mod_eq_of_lt h]
  | cons a rest ih =>
    intro b h
    rw [List.foldl_cons, ih _ (stepByte_head_lt HF b a h),
      stepByte_head_mod HF b a h, List.length_cons, hbs]
    omega

/-- Normal form for `update` under the builder invariant: a byte-wise fold plus
the size bump, written as an explicit structure literal. -/
theorem update_eq_foldl (HF : List Nat → Hash) (b : CidBuilder)
    (data : List Nat) (h : b.head < BLOCK_SIZE) :
    b.update HF data =
      { version := b.version,
        size := (b.size + data.length) % 2 ^ 64,
        head := (data.foldl (stepByte HF) b).head,
        hasher := (data.foldl (stepByte HF) b).hasher,
        leaves := (data.foldl (stepByte HF) b).leaves } := by
  unfold CidBuilder.update
  rw [updateLoop_eq_foldl HF data { b with size := (b.size + data.length) % 2 ^ 64 } h,
    foldl_stepByte_set_size, ← foldl_stepByte_version HF data b]

theorem update_head_lt (HF : List Nat → Hash) (b : CidBuilder)
    (data : List Nat) (h : b.head < BLOCK_SIZE) :
    (b.update HF data).head < BLOCK_SIZE := by
  rw [update_eq_foldl HF b data h]
  exact foldl_stepByte_head_lt HF data b h

theorem update_size_lt (HF : List Nat → Hash) (b : CidBuilder)
    (data : List Nat) (h : b.head < BLOCK_SIZE) :
    (b.update HF data).size < 2 ^ 64 := by
  rw [update_eq_foldl HF b data h]
  exact Nat.mod_lt _ (by norm_num)

/-- `stepByte` reads only the cursor, the active hasher and the leaves; its
effect on those three fields is independent of `size` and `version`. -/
theorem stepByte_hhl (HF : List Nat → Hash) (a : Nat) (b c : CidBuilder)
    (h1 : b.head = c.head) (h2 : b.hasher = c.hasher) (h3 : b.leaves = c.leaves) :
    (stepByte HF b a).head = (stepByte HF c a).head ∧
    (stepByte HF b a).hasher = (stepByte HF c a).hasher ∧
    (stepByte HF b a).leaves = (stepByte HF c a).leaves := by
  simp only [stepByte, h1, h2, h3]
  split <;> exact ⟨rfl, rfl, rfl⟩

theorem foldl_stepByte_hhl (HF : List Nat → Hash) (l : List Nat) :
    ∀ b c : CidBuilder, b.head = c.head → b.hasher = c.hasher →
      b.leaves = c.leaves →
      (l.foldl (stepByte HF) b).head = (l.foldl (stepByte HF) c).head ∧
      (l.foldl (stepByte HF) b).hasher = (l.foldl (stepByte HF) c).hasher ∧
      (l.foldl (stepByte HF) b).leaves = (l.foldl (stepByte HF) c).leaves := by
  induction l with
  | nil => intro b c h1 h2 h3; exact ⟨h1, h2, h3⟩
  | cons a rest ih =>
    intro b c h1 h2 h3
    obtain ⟨g1, g2, g3⟩ := stepByte_hhl HF a b c h1 h2 h3
    exact ih _ _ g1 g2 g3

/-- Two consecutive `update` calls are one `update` of the concatenation. -/
theorem update_update (HF : List Nat → Hash) (b : CidBuilder) (x y : List Nat)
    (h : b.head < BLOCK_SIZE) :
    (b.update HF x).update HF y = b.update HF (x ++ y) := by
  have hx : (b.update HF x).head < BLOCK_SIZE := update_head_lt HF b x h
  rw [update_eq_foldl HF _ y hx, update_eq_foldl HF b x h,
    update_eq_foldl HF b (x ++ y) h]
  dsimp only
  rw [List.foldl_append, CidBuilder.mk.injEq]
  refine ⟨rfl, ?_, ?_, ?_, ?_⟩
  · simp only [List.length_append]
    omega
  · refine (foldl_stepByte_hhl HF y _ _ ?_ ?_ ?_).1 <;> rfl
  · refine (foldl_stepByte_hhl HF y _ _ ?_ ?_ ?_).2.1 <;> rfl
  · refine (foldl_stepByte_hhl HF y _ _ ?_ ?_ ?_).2.2 <;> rfl

/-- Folding `update` over a chunk list from a reachable state is one `update`
of the flattened byte stream. -/
theorem foldl_update_flatten (HF : List Nat → Hash) (chunks : List (List Nat)) :
    ∀ b : CidBuilder, b.head < BLOCK_SIZE → b.size < 2 ^ 64 →
      chunks.foldl (CidBuilder.update HF) b = b.update HF chunks.flatten := by
  induction chunks with
  | nil =>
    intro b h hs
    rw [List.foldl_nil, List.flatten_nil, update_eq_foldl HF b [] h]
    simp only [List.foldl_nil, List.length_nil, Nat.add_zero]
    rw [Nat.mod_eq_of_lt hs]
  | cons c cs ih =>
    intro b h hs
    rw [List.foldl_cons, List.flatten_cons,
      ih _ (update_head_lt HF b c h) (update_size_lt HF b c h),
      update_update HF b c cs.flatten h]

/-! ## Claim C2: chunking invariance -/

/-- C2: for every byte sequence and every split of it into consecutive chunks,
updating once per chunk in order and finalizing yields the same CID as a single
update with the whole sequence (same builder version, any hash function). -/
theorem cid_chunking_invariance (HF : List Nat → Hash) (v : Nat)
    (chunks : List (List Nat)) :
    (chunks.foldl (CidBuilder.update HF) (Cid.builder v)).finalize HF =
      ((Cid.builder v).update HF chunks.flatten).finalize HF := by
  rw [foldl_update_flatten HF chunks (Cid.builder v)
    (by norm_num [Cid.builder, BLOCK_SIZE]) (by norm_num [Cid.builder])]

/-! ## Claim C9: cursor and size invariant -/

/-- C9: after any sequence of `update` calls on a fresh builder, the block
cursor equals the accumulated size modulo `BLOCK_SIZE` and lies below
`BLOCK_SIZE`, and the size is the total byte count passed so far (reduced
modulo `2 ^ 64` by the u64 field; exact whenever the total fits in a u64). -/
theorem cid_builder_cursor_invariant (HF : List Nat → Hash) (v : Nat)
    (chunks : List (List Nat)) :
    (chunks.foldl (CidBuilder.update HF) (Cid.builder v)).head =
        (chunks.foldl (CidBuilder.update HF) (Cid.builder v)).size %
          BLOCK_SIZE ∧
      (chunks.foldl (CidBuilder.update HF) (Cid.builder v)).head <
        BLOCK_SIZE ∧
      (chunks.foldl (CidBuilder.update HF) (Cid.builder v)).size =
        chunks.flatten.length % 2 ^ 64 ∧
      (chunks.flatten.length < 2 ^ 64 →
        (chunks.foldl (CidBuilder.update HF) (Cid.builder v)).size =
          chunks.flatten.length) := by
  have hb : (Cid.builder v).head < BLOCK_SIZE := by
    norm_num [Cid.builder, BLOCK_SIZE]
  rw [foldl_update_flatten HF chunks (Cid.builder v) hb
    (by norm_num [Cid.builder]), update_eq_foldl HF _ _ hb,
    foldl_stepByte_head_mod HF _ _ hb]
  dsimp only [Cid.builder]
  have hdvd : BLOCK_SIZE ∣ 2 ^ 64 := by
    refine ⟨2 ^ 50, ?_⟩
    norm_num [BLOCK_SIZE]
  refine ⟨?_, ?_, ?_, ?_⟩
  · rw [Nat.mod_mod_of_dvd _ hdvd]
  · exact Nat.mod_lt _ (by norm_num [BLOCK_SIZE])
  · rw [Nat.zero_add]
  · intro hlt
    rw [Nat.zero_add, Nat.mod_eq_of_lt hlt]

theorem cid_builder_cursor_invariant_witness :
    (([[0], [1, 2]] : List (List Nat)).foldl
        (CidBuilder.update (fun _ => zeroHash)) (Cid.builder 65)).size =
      ([[0], [1, 2]] : List (List Nat)).flatten.length :=
  (cid_builder_cursor_invariant (fun _ => zeroHash) 65 [[0], [1, 2]]).2.2.2
    (by norm_num)

/-! ## Claim C8: empty input -/

/-- C8: finalizing a builder that consumed zero bytes yields size 0 and the
all-zero 32-byte hash (the padding root of a one-slot tree with no real
leaves). -/
theorem cid_empty_input (HF : List Nat → Hash) (v : Nat)
    (chunks : List (List Nat)) (h : chunks.flatten = []) :
    (chunks.foldl (CidBuilder.update HF) (Cid.builder v)).finalize HF =
      { version := v, size := 0, hash := zeroHash } := by
  rw [foldl_update_flatten HF chunks (Cid.builder v)
      (by norm_num [Cid.builder, BLOCK_SIZE]) (by norm_num [Cid.builder]), h,
    update_eq_foldl HF _ [] (by norm_num [Cid.builder, BLOCK_SIZE])]
  rfl

theorem cid_empty_input_witness :
    ([[]] : List (List Nat)).flatten = [] ∧
      (([[]] : List (List Nat)).foldl (CidBuilder.update (fun _ => zeroHash))
          (Cid.builder 65)).finalize (fun _ => zeroHash) =
        { version := 65, size := 0, hash := zeroHash } :=
  ⟨rfl, cid_empty_input (fun _ => zeroHash) 65 [[]] rfl⟩

/-! ## Claim C10: version independence of size and hash -/

theorem update_coreState (HF : List Nat → Hash) (d : List Nat)
    (b c : CidBuilder) (hcs : coreState b = coreState c)
    (h : b.head < BLOCK_SIZE) :
    coreState (b.update HF d) = coreState (c.update HF d) := by
  obtain ⟨h1, h2, h3, h4⟩ :
      b.size = c.size ∧ b.head = c.head ∧ b.hasher = c.hasher ∧
        b.leaves = c.leaves := by
    simpa [coreState, Prod.ext_iff] using hcs
  rw [update_eq_foldl HF b d h, update_eq_foldl HF c d (by rwa [h2] at h)]
  obtain ⟨g1, g2, g3⟩ := foldl_stepByte_hhl HF d b c h2 h3 h4
  simp [coreState, g1, g2, g3, h1]

theorem foldl_update_coreState (HF : List Nat → Hash) (ds : List (List Nat)) :
    ∀ b c : CidBuilder, coreState b = coreState c → b.head < BLOCK_SIZE →
      coreState (ds.foldl (CidBuilder.update HF) b) =
        coreState (ds.foldl (CidBuilder.update HF) c) := by
  induction ds with
  | nil => intro b c hcs _; exact hcs
  | cons d rest ih =>
    intro b c hcs h
    rw [List.foldl_cons, List.foldl_cons]
    exact ih _ _ (update_coreState HF d b c hcs h) (update_head_lt HF b d h)

/-- `set_version` touches only the version field. -/
theorem set_version_coreState (b : CidBuilder) (w : Nat) :
    coreState (b.set_version w) = coreState b := rfl

/-- A builder-operation sequence moves the non-version state exactly as the
fold of its update payloads does. -/
theorem applyOps_coreState (HF : List Nat → Hash) (ops : List BuildOp) :
    ∀ b : CidBuilder, b.head < BLOCK_SIZE →
      coreState (applyOps HF b ops) =
        coreState ((updatesOf ops).foldl (CidBuilder.update HF) b) := by
  induction ops with
  | nil => intro b _; rfl
  | cons op rest ih =>
    intro b h
    cases op with
    | update d =>
      simp only [applyOps, List.foldl_cons, applyOp, updatesOf,
        List.filterMap_cons]
      exact ih (b.update HF d) (update_head_lt HF b d h)
    | setVersion u =>
      simp only [applyOps, List.foldl_cons, applyOp, updatesOf,
        List.filterMap_cons]
      calc coreState ((rest.foldl (applyOp HF) (b.set_version u)))
          = coreState ((updatesOf rest).foldl (CidBuilder.update HF)
              (b.set_version u)) := ih (b.set_version u) h
        _ = coreState ((updatesOf rest).foldl (CidBuilder.update HF) b) :=
            foldl_update_coreState HF (updatesOf rest) (b.set_version u) b
              (set_version_coreState b u) h

/-- The size and hash of a finalized CID are functions of the non-version
state. -/
theorem finalize_coreState (HF : List Nat → Hash) (b c : CidBuilder)
    (h : coreState b = coreState c) :
    (b.finalize HF).size = (c.finalize HF).size ∧
      (b.finalize HF).hash = (c.finalize HF).hash := by
  obtain ⟨h1, h2, h3, h4⟩ :
      b.size = c.size ∧ b.head = c.head ∧ b.hasher = c.hasher ∧
        b.leaves = c.leaves := by
    simpa [coreState, Prod.ext_iff] using h
  constructor
  · simpa [CidBuilder.finalize] using h1
  · simp [CidBuilder.finalize, h2, h3, h4]

/-- C10: two builds over the same update payloads, under any two starting
versions and any interleaving of `set_version` calls, finalize to CIDs with
identical size and identical hash — the version tag never enters the hashing
state. -/
theorem cid_version_independence (HF : List Nat → Hash) (v1 v2 : Nat)
    (ops1 ops2 : List BuildOp) (h : updatesOf ops1 = updatesOf ops2) :
    ((applyOps HF (Cid.builder v1) ops1).finalize HF).size =
        ((applyOps HF (Cid.builder v2) ops2).finalize HF).size ∧
      ((applyOps HF (Cid.builder v1) ops1).finalize HF).hash =
        ((applyOps HF (Cid.builder v2) ops2).finalize HF).hash := by
  have hb1 : (Cid.builder v1).head < BLOCK_SIZE := by
    norm_num [Cid.builder, BLOCK_SIZE]
  have hb2 : (Cid.builder v2).head < BLOCK_SIZE := by
    norm_num [Cid.builder, BLOCK_SIZE]
  refine finalize_coreState HF _ _ ?_
  calc coreState (applyOps HF (Cid.builder v1) ops1)
      = coreState ((updatesOf ops1).foldl (CidBuilder.update HF)
          (Cid.builder v1)) := applyOps_coreState HF ops1 _ hb1
    _ = coreState ((updatesOf ops2).foldl (CidBuilder.update HF)
          (Cid.builder v2)) := by
        rw [h]
        exact foldl_update_coreState HF (updatesOf ops2) (Cid.builder v1)
          (Cid.builder v2) rfl hb1
    _ = coreState (applyOps HF (Cid.builder v2) ops2) :=
        (applyOps_coreState HF ops2 _ hb2).symm

theorem cid_version_independence_witness :
    updatesOf [BuildOp.update [1], BuildOp.setVersion 66] =
        updatesOf [BuildOp.setVersion 67, BuildOp.update [1]] ∧
      ((applyOps (fun _ => zeroHash) (Cid.builder 65)
            [BuildOp.update [1], BuildOp.setVersion 66]).finalize
          (fun _ => zeroHash)).size =
        ((applyOps (fun _ => zeroHash) (Cid.builder 66)
              [BuildOp.setVersion 67, BuildOp.update [1]]).finalize
            (fun _ => zeroHash)).size ∧
      ((applyOps (fun _ => zeroHash) (Cid.builder 65)
            [BuildOp.update [1], BuildOp.setVersion 66]).finalize
          (fun _ => zeroHash)).hash =
        ((applyOps (fun _ => zeroHash) (Cid.builder 66)
              [BuildOp.setVersion 67, BuildOp.update [1]]).finalize
            (fun _ => zeroHash)).hash :=
  ⟨rfl,
    cid_version_independence (fun _ => zeroHash) 65 66
      [BuildOp.update [1], BuildOp.setVersion 66]
      [BuildOp.setVersion 67, BuildOp.update [1]] rfl⟩

/-! ## Codec lemmas and claims C3, C5, C6, C7 -/

/-- A buffer consisting only of continuation bytes never yields a varint:
either the buffer runs out (truncation) or the shift passes 64 (overflow). -/
theorem getUvarint_all_continuation (bytes : List Nat) :
    ∀ shift acc, (∀ b ∈ bytes, 128 ≤ b ∧ b < 256) →
      getUvarint bytes shift acc = none := by
  induction bytes with
  | nil => intro shift acc _; rfl
  | cons b rest ih =>
    intro shift acc hb
    obtain ⟨hb1, hb2⟩ := hb b (List.mem_cons_self b rest)
    simp only [getUvarint]
    rw [Nat.mod_eq_of_lt hb2, if_neg (by omega)]
    split
    · rfl
    · exact ih _ _ fun x hx => hb x (List.mem_cons_of_mem b hx)

/-- Ten or more continuation bytes overflow the 64-bit accumulator no matter
what follows them. -/
theorem getUvarint_overlong (bytes : List Nat) :
    ∀ (rest : List Nat) (shift acc : Nat), bytes ≠ [] →
      (∀ b ∈ bytes, 128 ≤ b ∧ b < 256) → 64 ≤ shift + 7 * bytes.length →
      getUvarint (bytes ++ rest) shift acc = none := by
  induction bytes with
  | nil => intro rest shift acc hne _ _; exact absurd rfl hne
  | cons b bs ih =>
    intro rest shift acc _ hb hlen
    obtain ⟨hb1, hb2⟩ := hb b (List.mem_cons_self b bs)
    simp only [List.cons_append, getUvarint]
    rw [Nat.mod_eq_of_lt hb2, if_neg (by omega)]
    split
    · rfl
    · rename_i hsh
      have hbs : bs ≠ [] := by
        intro hnil
        subst hnil
        simp only [List.length_cons, List.length_nil] at hlen
        omega
      refine ih rest (shift + 7) _ hbs
        (fun x hx => hb x (List.mem_cons_of_mem b hx)) ?_
      simp only [List.length_cons] at hlen
      omega

/-- A string containing a character outside the base-58 alphabet fails to
decode. -/
theorem b58Vals_none (s : List Nat) :
    ∀ x : Nat, x ∈ s → b58Index x = none → b58Vals s = none := by
  induction s with
  | nil => intro x hx _; cases hx
  | cons c rest ih =>
    intro x hx hnone
    rcases List.mem_cons.mp hx with rfl | hmem
    · simp [b58Vals, hnone]
    · simp only [b58Vals]
      rw [ih x hmem hnone]
      cases hbi : b58Index c <;> rfl

/-- C5: the decoder's error taxonomy.  An unrecognized version byte fails with
`UnsupportedVersion`; a truncated varint (only continuation bytes up to the end
of the buffer) and an overlong varint (ten or more continuation bytes) fail
with `InvalidSize`; a remaining buffer that is not exactly 32 bytes after a
valid varint fails with `InvalidHash`; a string whose payload contains a
non-base-58 character fails with `InvalidEncoding`. -/
theorem cid_decode_error_taxonomy :
    (∀ (v : Nat) (buf : List Nat), v ≠ VERSION_RAW →
        Cid.from_bytes (v :: buf) = some (.error (.unsupportedVersion v))) ∧
      (∀ bytes : List Nat, (∀ b ∈ bytes, 128 ≤ b ∧ b < 256) →
        Cid.from_bytes (VERSION_RAW :: bytes) = some (.error .invalidSize)) ∧
      (∀ bytes rest : List Nat, bytes ≠ [] →
        (∀ b ∈ bytes, 128 ≤ b ∧ b < 256) → 10 ≤ bytes.length →
        Cid.from_bytes (VERSION_RAW :: (bytes ++ rest)) =
          some (.error .invalidSize)) ∧
      (∀ (size : Nat) (rest : List Nat), size < 2 ^ 64 → rest.length ≠ 32 →
        Cid.from_bytes (VERSION_RAW :: (putUvarint size ++ rest)) =
          some (.error .invalidHash)) ∧
      (∀ (c : Nat) (s : List Nat) (x : Nat), c < 128 → x ∈ s →
        b58Index x = none →
        Cid.from_string (c :: s) = some (.error .invalidEncoding)) := by
  refine ⟨?_, ?_, ?_, ?_, ?_⟩
  · intro v buf hv
    simp [Cid.from_bytes, Cid.from_version_and_buf, hv]
  · intro bytes hb
    simp only [Cid.from_bytes, Cid.from_version_and_buf, VERSION_RAW]
    rw [if_neg (by omega), getUvarint_all_continuation bytes 0 0 hb]
  · intro bytes rest hne hb hlen
    simp only [Cid.from_bytes, Cid.from_version_and_buf, VERSION_RAW]
    rw [if_neg (by omega), getUvarint_overlong bytes rest 0 0 hne hb (by omega)]
  · intro size rest hsz hrest
    simp only [Cid.from_bytes, Cid.from_version_and_buf, VERSION_RAW]
    rw [if_neg (by omega), getUvarint_putUvarint_zero size rest hsz]
    simp [hrest]
  · intro c s x hc hx hnone
    simp only [Cid.from_string, if_neg (by omega : ¬ 128 ≤ c)]
    rw [show b58Decode s = none by simp [b58Decode, b58Vals_none s x hx hnone]]

theorem cid_decode_error_taxonomy_witness :
    Cid.from_bytes [66] = some (.error (.unsupportedVersion 66)) ∧
      Cid.from_bytes [VERSION_RAW, 128] = some (.error .invalidSize) ∧
      Cid.from_bytes (VERSION_RAW :: (List.replicate 10 128 ++ [0])) =
        some (.error .invalidSize) ∧
      Cid.from_bytes (VERSION_RAW :: (putUvarint 0 ++ [7])) =
        some (.error .invalidHash) ∧
      Cid.from_string [65, 48] = some (.error .invalidEncoding) :=
  ⟨cid_decode_error_taxonomy.1 66 [] (by decide),
    cid_decode_error_taxonomy.2.1 [128] (by decide),
    cid_decode_error_taxonomy.2.2.1 (List.replicate 10 128) [0] (by decide)
      (by decide) (by decide),
    cid_decode_error_taxonomy.2.2.2.1 0 [7] (by decide) (by decide),
    cid_decode_error_taxonomy.2.2.2.2 65 [48] 48 (by decide) (by decide)
      (by decide)⟩

/-- C3 (amended): binary round-trip holds exactly for the one recognized
version `'A'`: for it, `decode (encode cid) = ok cid` (and likewise via
`from_bytes`); for every other version byte, `encode` still succeeds but
`decode` rejects the result with `UnsupportedVersion`. -/
theorem cid_binary_roundtrip_raw (size : Nat) (hash : List Nat)
    (hsz : size < 2 ^ 64) (hh : hash.length = 32) :
    Cid.decode (Cid.encode { version := VERSION_RAW, size := size, hash := hash }) =
        some (.ok { version := VERSION_RAW, size := size, hash := hash }) ∧
      Cid.from_bytes
          (Cid.encode { version := VERSION_RAW, size := size, hash := hash }) =
        some (.ok { version := VERSION_RAW, size := size, hash := hash }) ∧
      ∀ v : Nat, v ≠ VERSION_RAW →
        Cid.decode (Cid.encode { version := v, size := size, hash := hash }) =
          some (.error (.unsupportedVersion v)) := by
  have key : Cid.from_version_and_buf VERSION_RAW (putUvarint size ++ hash) =
      .ok { version := VERSION_RAW, size := size, hash := hash } := by
    simp only [Cid.from_version_and_buf]
    rw [if_neg (by simp), getUvarint_putUvarint_zero size hash hsz]
    simp [hh]
  refine ⟨?_, ?_, ?_⟩
  · simp only [Cid.encode, Cid.decode]
    rw [key]
  · simp only [Cid.encode, Cid.from_bytes]
    rw [key]
  · intro v hv
    simp [Cid.encode, Cid.decode, Cid.from_version_and_buf, hv]

theorem cid_binary_roundtrip_raw_witness :
    Cid.decode (Cid.encode { version := VERSION_RAW, size := 10, hash := oneHash }) =
      some (.ok { version := VERSION_RAW, size := 10, hash := oneHash }) :=
  (cid_binary_roundtrip_raw 10 oneHash (by norm_num) (by simp [oneHash])).1

/-- C3 counterexample: a CID with the unimplemented version byte `'B'` (0x42)
does not round-trip: the decoder rejects it with `UnsupportedVersion`, so
`decode (encode cid) ≠ ok cid`. -/
theorem cid_binary_roundtrip_counterexample :
    Cid.decode (Cid.encode { version := 66, size := 0, hash := zeroHash }) =
        some (.error (.unsupportedVersion 66)) ∧
      Cid.decode (Cid.encode { version := 66, size := 0, hash := zeroHash }) ≠
        some (.ok { version := 66, size := 0, hash := zeroHash }) := by
  have h0 : putUvarint 0 = [0] := by
    rw [putUvarint]
    norm_num
  constructor
  · simp [Cid.encode, Cid.decode, h0, Cid.from_version_and_buf, VERSION_RAW]
  · simp [Cid.encode, Cid.decode, h0, Cid.from_version_and_buf, VERSION_RAW]

/-- C6 counterexample: on the empty input, `from_bytes`, `decode` and
`from_string` all panic (`slice::split_at(1)` / `Buf::get_u8` out of bounds),
modelled by `none` — they do not return a CID or a typed decode error. -/
theorem cid_decode_empty_counterexample :
    Cid.from_bytes [] = none ∧ Cid.decode [] = none ∧
      Cid.from_string [] = none :=
  ⟨rfl, rfl, rfl⟩

/-- C6 (amended): on every nonempty byte buffer, `from_bytes` and `decode`
return a value — a CID or one of the typed errors, never a panic; likewise
`from_string` on every string whose first character is a single UTF-8 byte. -/
theorem cid_decode_total_on_nonempty :
    (∀ (v : Nat) (bytes : List Nat), (Cid.from_bytes (v :: bytes)).isSome) ∧
      (∀ (v : Nat) (bytes : List Nat), (Cid.decode (v :: bytes)).isSome) ∧
      (∀ (c : Nat) (s : List Nat), c < 128 →
        (Cid.from_string (c :: s)).isSome) := by
  refine ⟨fun v bytes => rfl, fun v bytes => rfl, fun c s hc => ?_⟩
  simp [Cid.from_string, Nat.not_le.mpr hc]

theorem cid_decode_total_on_nonempty_witness :
    (Cid.from_string [65, 49]).isSome = true :=
  cid_decode_total_on_nonempty.2.2 65 [49] (by decide)

/-- C7 (amended): the encoding is the version byte, the LEB128 varint of the
size, then the raw 32-byte hash; the varint takes at most 10 bytes for a u64
(not 9), so the total length is at most 1 + 10 + 32 = 43 bytes (not 42). -/
theorem cid_encode_layout_length (v size : Nat) (hash : List Nat)
    (hsz : size < 2 ^ 64) (hh : hash.length = 32) :
    Cid.encode { version := v, size := size, hash := hash } =
        v :: (putUvarint size ++ hash) ∧
      (putUvarint size).length ≤ 10 ∧
      (Cid.encode { version := v, size := size, hash := hash }).length ≤ 43 := by
  have hlen : (putUvarint size).length ≤ 10 := by
    have h10 := putUvarint_length_le 10 size
      (by
        calc size < 2 ^ 64 := hsz
          _ ≤ 128 ^ 10 := by norm_num)
    simpa using h10
  refine ⟨rfl, hlen, ?_⟩
  simp only [Cid.encode, List.length_cons, List.length_append, hh]
  omega

theorem cid_encode_layout_length_witness :
    Cid.encode { version := 65, size := 10, hash := oneHash } =
        65 :: (putUvarint 10 ++ oneHash) ∧
      (putUvarint 10).length ≤ 10 ∧
      (Cid.encode { version := 65, size := 10, hash := oneHash }).length ≤ 43 :=
  cid_encode_layout_length 65 10 oneHash (by norm_num) (by simp [oneHash])

theorem putUvarint_length_lower (k : Nat) :
    ∀ n, 128 ^ k ≤ n → k < (putUvarint n).length := by
  induction k with
  | zero =>
    intro n _
    rw [putUvarint]
    split <;> simp
  | succ k ih =>
    intro n h
    rw [putUvarint]
    have h128 : ¬ n < 128 := by
      have hle : (128 : Nat) ≤ 128 ^ (k + 1) := by
        calc (128 : Nat) = 128 ^ 1 := (pow_one 128).symm
          _ ≤ 128 ^ (k + 1) := Nat.pow_le_pow_right (by omega) (by omega)
      omega
    rw [if_neg h128]
    simp only [List.length_cons]
    have hdiv : 128 ^ k ≤ n / 128 := by
      rw [Nat.le_div_iff_mul_le (by norm_num)]
      calc 128 ^ k * 128 = 128 ^ (k + 1) := (pow_succ 128 k).symm
        _ ≤ n := h
    have := ih (n / 128) hdiv
    omega

/-- C7 counterexample: for `size = 2 ^ 63` the varint takes 10 bytes, so the
encoding is 43 bytes long — the claimed 42-byte bound is exceeded. -/
theorem cid_encode_length_counterexample :
    (Cid.encode { version := VERSION_RAW, size := 2 ^ 63, hash := zeroHash }).length = 43 ∧
      ¬ (Cid.encode
          { version := VERSION_RAW, size := 2 ^ 63, hash := zeroHash }).length ≤ 42 := by
  have hup : (putUvarint (2 ^ 63)).length ≤ 10 := by
    have h10 := putUvarint_length_le 10 (2 ^ 63) (by norm_num)
    simpa using h10
  have hlo : 9 < (putUvarint (2 ^ 63)).length :=
    putUvarint_length_lower 9 (2 ^ 63) (by norm_num)
  have hlen :
      (Cid.encode
        { version := VERSION_RAW, size := 2 ^ 63, hash := zeroHash }).length =
      43 := by
    show (VERSION_RAW :: (putUvarint (2 ^ 63) ++ zeroHash)).length = 43
    rw [List.length_cons, List.length_append]
    have hz : zeroHash.length = 32 := by
      simp [zeroHash]
    rw [hz]
    omega
  exact ⟨hlen, by omega⟩

/-! ## Base-58 round-trip and claim C4 -/

theorem b58Index_alphabet :
    ∀ d : Nat, d < 58 → b58Index (b58Alphabet.getD d 0) = some d := by
  decide

theorem b58Vals_map_alphabet (digits : List Nat) (h : ∀ d ∈ digits, d < 58) :
    b58Vals (digits.map fun d => b58Alphabet.getD d 0) = some digits := by
  induction digits with
  | nil => rfl
  | cons d rest ih =>
    simp only [List.map_cons, b58Vals]
    rw [b58Index_alphabet d (h d (List.mem_cons_self d rest)),
      ih fun x hx => h x (List.mem_cons_of_mem d hx)]

theorem b58Vals_replicate_one (z : Nat) (s : List Nat) :
    b58Vals (List.replicate z 49 ++ s) =
      (b58Vals s).map (List.replicate z 0 ++ ·) := by
  induction z with
  | zero =>
    simp only [List.replicate_zero, List.nil_append]
    cases b58Vals s <;> simp
  | succ z ih =>
    simp only [List.replicate_succ, List.cons_append, b58Vals, List.append_eq]
    rw [show b58Index 49 = some 0 from by decide, ih]
    cases b58Vals s <;> simp [List.replicate_succ]

theorem czeros_replicate_append (z : Nat) (l : List Nat) :
    czeros (List.replicate z 0 ++ l) = z + czeros l := by
  induction z with
  | zero => simp [List.replicate_zero]
  | succ z ih =>
    have hc : czeros ((0 : Nat) :: (List.replicate z 0 ++ l)) =
        czeros (List.replicate z 0 ++ l) + 1 := by
      simp [czeros]
    rw [List.replicate_succ, List.cons_append, hc, ih]
    omega

theorem czeros_head_ne (l : List Nat) (h : ∀ x, l.head? = some x → x ≠ 0) :
    czeros l = 0 := by
  cases l with
  | nil => rfl
  | cons a r =>
    have ha : a ≠ 0 := h a rfl
    simp [czeros, ha]

theorem czeros_digits_reverse (n : Nat) :
    czeros ((Nat.digits 58 n).reverse) = 0 := by
  rcases Nat.eq_zero_or_pos n with rfl | hn
  · simp [czeros]
  · apply czeros_head_ne
    intro x hx
    have hne : Nat.digits 58 n ≠ [] :=
      Nat.digits_ne_nil_iff_ne_zero.mpr (by omega)
    rw [List.head?_reverse, List.getLast?_eq_getLast _ hne] at hx
    cases hx
    exact Nat.getLast_digit_ne_zero 58 (by omega)

theorem ofDigits_replicate_zero (b z : Nat) :
    Nat.ofDigits b (List.replicate z 0) = 0 := by
  induction z with
  | zero => rfl
  | succ z ih => simp [List.replicate_succ, Nat.ofDigits_cons, ih]

theorem czeros_decomp (input : List Nat) :
    input = List.replicate (czeros input) 0 ++ input.drop (czeros input) ∧
      ∀ x, (input.drop (czeros input)).head? = some x → x ≠ 0 := by
  induction input with
  | nil => exact ⟨rfl, fun x hx => by cases hx⟩
  | cons a r ih =>
    by_cases ha : a = 0
    · subst ha
      have hc : czeros ((0 : Nat) :: r) = czeros r + 1 := by
        simp [czeros]
      rw [hc]
      constructor
      · rw [List.replicate_succ, List.drop_succ_cons, List.cons_append]
        conv_lhs => rw [show r = List.replicate (czeros r) 0 ++
          r.drop (czeros r) from ih.1]
      · rw [List.drop_succ_cons]
        exact ih.2
    · simp only [czeros, if_neg ha, List.replicate_zero, List.nil_append,
        List.drop_zero]
      refine ⟨trivial, fun x hx => ?_⟩
      cases hx
      exact ha

/-- `bs58` round-trip: decoding the encoding of any byte string returns it
unchanged. -/
theorem b58_roundtrip (input : List Nat) (hin : ∀ b ∈ input, b < 256) :
    b58Decode (b58Encode input) = some input := by
  obtain ⟨hdec, hhead⟩ := czeros_decomp input
  have hn : Nat.ofDigits 256 input.reverse =
      Nat.ofDigits 256 (input.drop (czeros input)).reverse := by
    conv_lhs => rw [hdec]
    rw [List.reverse_append, List.reverse_replicate, Nat.ofDigits_append,
      ofDigits_replicate_zero, Nat.mul_zero, Nat.add_zero]
  simp only [b58Encode, b58Decode]
  rw [b58Vals_replicate_one, b58Vals_map_alphabet _
    (fun d hd => Nat.digits_lt_base (by norm_num) (List.mem_reverse.mp hd))]
  simp only [Option.map_some']
  congr 1
  rw [czeros_replicate_append, czeros_digits_reverse, Nat.add_zero,
    List.reverse_append, List.reverse_reverse, List.reverse_replicate,
    Nat.ofDigits_append, ofDigits_replicate_zero, Nat.mul_zero, Nat.add_zero,
    Nat.ofDigits_digits, hn]
  rw [Nat.digits_ofDigits 256 (by norm_num) _
    (fun l hl => hin l (List.drop_subset _ _ (List.mem_reverse.mp hl)))
    (fun hne => ?_)]
  · rw [List.reverse_reverse]
    exact hdec.symm
  · have h1 := List.getLast?_eq_getLast _ hne
    rw [List.getLast?_reverse] at h1
    exact hhead _ h1

theorem from_version_and_buf_ok (size : Nat) (hash : List Nat)
    (hsz : size < 2 ^ 64) (hh : hash.length = 32) :
    Cid.from_version_and_buf VERSION_RAW (putUvarint size ++ hash) =
      .ok { version := VERSION_RAW, size := size, hash := hash } := by
  simp only [Cid.from_version_and_buf]
  rw [if_neg (by simp), getUvarint_putUvarint_zero size hash hsz]
  simp [hh]

/-- C4 (amended): string round-trip holds exactly for CIDs with the recognized
version `'A'`: `from_string (to_string cid) = ok cid`.  For any other
printable-ASCII version byte, `to_string` still renders the CID but
`from_string` rejects it with `UnsupportedVersion`. -/
theorem cid_string_roundtrip_raw (size : Nat) (hash : List Nat)
    (hsz : size < 2 ^ 64) (hh : hash.length = 32)
    (hb : ∀ b ∈ hash, b < 256) :
    Cid.from_string
        (Cid.to_string { version := VERSION_RAW, size := size, hash := hash }) =
        some (.ok { version := VERSION_RAW, size := size, hash := hash }) ∧
      ∀ v : Nat, v < 128 → v ≠ VERSION_RAW →
        Cid.from_string
            (Cid.to_string { version := v, size := size, hash := hash }) =
          some (.error (.unsupportedVersion v)) := by
  have hpayload : ∀ b ∈ putUvarint size ++ hash, b < 256 := by
    intro b hbmem
    rcases List.mem_append.mp hbmem with h | h
    · exact putUvarint_bytes size b h
    · exact hb b h
  have hb58 := b58_roundtrip (putUvarint size ++ hash) hpayload
  constructor
  · show Cid.from_string
      (utf8Char VERSION_RAW ++ b58Encode (putUvarint size ++ hash)) = _
    rw [show utf8Char VERSION_RAW = [VERSION_RAW] from rfl]
    simp only [List.cons_append, List.nil_append, Cid.from_string]
    rw [if_neg (by norm_num [VERSION_RAW]), hb58]
    exact congrArg some (from_version_and_buf_ok size hash hsz hh)
  · intro v hv hne
    show Cid.from_string (utf8Char v ++ b58Encode (putUvarint size ++ hash)) = _
    rw [show utf8Char v = [v] from by simp [utf8Char, hv]]
    simp only [List.cons_append, List.nil_append, Cid.from_string]
    rw [if_neg (by omega), hb58]
    refine congrArg some ?_
    simp [Cid.from_version_and_buf, hne]

theorem cid_string_roundtrip_raw_witness :
    Cid.from_string
        (Cid.to_string { version := VERSION_RAW, size := 10, hash := oneHash }) =
      some (.ok { version := VERSION_RAW, size := 10, hash := oneHash }) :=
  (cid_string_roundtrip_raw 10 oneHash (by norm_num) (by simp [oneHash])
    (by decide)).1

/-- C4 counterexample: a CID with the unimplemented version byte `'B'` (0x42)
does not round-trip through the string form: `from_string (to_string cid)`
returns `UnsupportedVersion`, not the original CID. -/
theorem cid_string_roundtrip_counterexample :
    Cid.from_string
        (Cid.to_string { version := 66, size := 0, hash := zeroHash }) =
        some (.error (.unsupportedVersion 66)) ∧
      Cid.from_string
          (Cid.to_string { version := 66, size := 0, hash := zeroHash }) ≠
        some (.ok { version := 66, size := 0, hash := zeroHash }) := by
  have hpayload : ∀ b ∈ putUvarint 0 ++ zeroHash, b < 256 := by
    intro b hbmem
    rcases List.mem_append.mp hbmem with h | h
    · exact putUvarint_bytes 0 b h
    · have hb0 := List.eq_of_mem_replicate
        (show b ∈ List.replicate 32 0 from h)
      omega
  have hb58 := b58_roundtrip (putUvarint 0 ++ zeroHash) hpayload
  have hmain : Cid.from_string
      (Cid.to_string { version := 66, size := 0, hash := zeroHash }) =
      some (.error (.unsupportedVersion 66)) := by
    show Cid.from_string (utf8Char 66 ++ b58Encode (putUvarint 0 ++ zeroHash)) = _
    rw [show utf8Char 66 = [66] from rfl]
    simp only [List.cons_append, List.nil_append, Cid.from_string]
    rw [if_neg (by omega), hb58]
    refine congrArg some ?_
    simp [Cid.from_version_and_buf, VERSION_RAW]
  exact ⟨hmain, by rw [hmain]; simp⟩

/-! ## Claim C1: the Merkle tree computed by `get_root` -/

theorem npotFuel_ge (f : Nat) : ∀ n, n ≤ f + 1 → n ≤ npotFuel f n := by
  induction f with
  | zero =>
    intro n h
    simpa [npotFuel] using h
  | succ f ih =>
    intro n h
    simp only [npotFuel]
    split
    · omega
    · rename_i h1
      have hrec := ih ((n + 1) / 2) (by omega)
      omega

theorem npot_ge (n : Nat) : n ≤ next_power_of_two n :=
  npotFuel_ge n n (by omega)

theorem npotFuel_pos (f : Nat) : ∀ n, 1 ≤ npotFuel f n := by
  induction f with
  | zero => intro n; simp [npotFuel]
  | succ f ih =>
    intro n
    simp only [npotFuel]
    split
    · omega
    · have := ih ((n + 1) / 2)
      omega

theorem npot_pos (n : Nat) : 1 ≤ next_power_of_two n :=
  npotFuel_pos n n

theorem getD_set_self (l : List Hash) (i : Nat) (a d : Hash)
    (h : i < l.length) : (l.set i a).getD i d = a := by
  rw [List.getD_eq_getElem _ _ (by rw [List.length_set]; exact h)]
  simp [List.getElem_set]

theorem getD_set_ne (l : List Hash) (i j : Nat) (a d : Hash) (h : i ≠ j) :
    (l.set i a).getD j d = l.getD j d := by
  rw [List.getD_eq_getD_get?, List.getD_eq_getD_get?, List.get?_set_ne _ _ h]

/-- The downward reduction loop computes, at every index, the recursive
node-hash of the flat tree: processing indices below `j` turns an array that
already holds node hashes at positions `≥ j` into one holding them
everywhere. -/
theorem reduceLoop_getD (HF : List Nat → Hash) (m : Nat) (L : List Hash)
    (hm : 1 ≤ m) :
    ∀ (j : Nat) (A : List Hash), j ≤ m - 1 → A.length = m * 2 - 1 →
      (∀ i, j ≤ i → A.getD i zeroHash = treeNodeHash HF m L i) →
      ∀ i, (reduceLoop HF A j).getD i zeroHash = treeNodeHash HF m L i := by
  intro j
  induction j with
  | zero =>
    intro A _ _ hA i
    exact hA i (Nat.zero_le i)
  | succ j ih =>
    intro A hj hlen hA i
    simp only [reduceLoop]
    apply ih
    · omega
    · rw [List.length_set]
      exact hlen
    · intro k hk
      rcases Nat.eq_or_lt_of_le hk with heq | hlt
      · subst heq
        rw [getD_set_self _ _ _ _ (by rw [hlen]; omega),
          hA (2 * j + 1) (by omega), hA (2 * j + 2) (by omega)]
        conv_rhs => rw [treeNodeHash]
        rw [if_pos (show j + 1 < m by omega)]
      · rw [getD_set_ne _ _ _ _ _ (by omega)]
        exact hA k (by omega)

/-- C1 (amended): `get_root` computes the root of the complete binary tree
with `m = next_power_of_two n` leaf slots in which the `n` real leaf hashes
come FIRST, in input order, followed by `m - n` all-zero 32-byte padding slots
(right-padding, not the left-padding the claim states); every internal node `i`
hashes the concatenation of its children `2i+1` and `2i+2`, and the root is
node 0. -/
theorem cid_merkle_root_tree (HF : List Nat → Hash) (leaves : List Hash) :
    get_root HF leaves =
      treeNodeHash HF (next_power_of_two leaves.length)
        (leaves ++
          List.replicate (next_power_of_two leaves.length - leaves.length)
            zeroHash) 0 := by
  have hm1 : 1 ≤ next_power_of_two leaves.length := npot_pos _
  have hnm : leaves.length ≤ next_power_of_two leaves.length := npot_ge _
  simp only [get_root]
  have harr : resizeWith (resizeWith [] (next_power_of_two leaves.length - 1)
        ++ leaves) (next_power_of_two leaves.length * 2 - 1) =
      List.replicate (next_power_of_two leaves.length - 1) zeroHash ++
        (leaves ++
          List.replicate (next_power_of_two leaves.length - leaves.length)
            zeroHash) := by
    simp only [resizeWith, List.length_nil, Nat.zero_le, if_pos,
      List.nil_append, Nat.sub_zero, List.length_append, List.length_replicate]
    rw [if_pos (by omega), List.append_assoc,
      show next_power_of_two leaves.length * 2 - 1 -
          (next_power_of_two leaves.length - 1 + leaves.length) =
          next_power_of_two leaves.length - leaves.length from by omega]
  rw [harr]
  refine reduceLoop_getD HF (next_power_of_two leaves.length) _ hm1
    (next_power_of_two leaves.length - 1) _ (by omega) ?_ ?_ 0
  · rw [List.length_append, List.length_replicate, List.length_append,
      List.length_replicate]
    omega
  · intro i hi
    rw [List.getD_append_right _ _ _ _ (by rw [List.length_replicate]; omega),
      List.length_replicate]
    rw [treeNodeHash, if_neg (by omega)]

/-- C1 counterexample: with three distinguishable leaves and the
take-left-child hash function, the root computed by `get_root` (real leaves
first, zero padding last) differs from the root of the claim's tree (zero
padding first, then the real leaves). -/
theorem cid_merkle_padding_counterexample :
    get_root projHash [oneHash, zeroHash, zeroHash] ≠
      claimRootLeftPadded projHash [oneHash, zeroHash, zeroHash] := by
  have e3 : treeNodeHash projHash 4
      (List.replicate 1 zeroHash ++ [oneHash, zeroHash, zeroHash]) 3 =
      zeroHash := by
    rw [treeNodeHash, if_neg (by norm_num)]
    decide
  have e4 : treeNodeHash projHash 4
      (List.replicate 1 zeroHash ++ [oneHash, zeroHash, zeroHash]) 4 =
      oneHash := by
    rw [treeNodeHash, if_neg (by norm_num)]
    decide
  have e1 : treeNodeHash projHash 4
      (List.replicate 1 zeroHash ++ [oneHash, zeroHash, zeroHash]) 1 =
      zeroHash := by
    rw [treeNodeHash, if_pos (by norm_num)]
    simp only [show 2 * 1 + 1 = 3 from rfl, show 2 * 1 + 2 = 4 from rfl]
    rw [e3, e4]
    decide
  have e5 : treeNodeHash projHash 4
      (List.replicate 1 zeroHash ++ [oneHash, zeroHash, zeroHash]) 5 =
      zeroHash := by
    rw [treeNodeHash, if_neg (by norm_num)]
    decide
  have e6 : treeNodeHash projHash 4
      (List.replicate 1 zeroHash ++ [oneHash, zeroHash, zeroHash]) 6 =
      zeroHash := by
    rw [treeNodeHash, if_neg (by norm_num)]
    decide
  have e2 : treeNodeHash projHash 4
      (List.replicate 1 zeroHash ++ [oneHash, zeroHash, zeroHash]) 2 =
      zeroHash := by
    rw [treeNodeHash, if_pos (by norm_num)]
    simp only [show 2 * 2 + 1 = 5 from rfl, show 2 * 2 + 2 = 6 from rfl]
    rw [e5, e6]
    decide
  have e0 : treeNodeHash projHash 4
      (List.replicate 1 zeroHash ++ [oneHash, zeroHash, zeroHash]) 0 =
      zeroHash := by
    rw [treeNodeHash, if_pos (by norm_num)]
    simp only [show 2 * 0 + 1 = 1 from rfl, show 2 * 0 + 2 = 2 from rfl]
    rw [e1, e2]
    decide
  have h1 : get_root projHash [oneHash, zeroHash, zeroHash] = oneHash := by
    decide
  have h2 : claimRootLeftPadded projHash [oneHash, zeroHash, zeroHash] =
      zeroHash := by
    have hc : claimRootLeftPadded projHash [oneHash, zeroHash, zeroHash] =
        treeNodeHash projHash 4
          (List.replicate 1 zeroHash ++ [oneHash, zeroHash, zeroHash]) 0 :=
      rfl
    rw [hc, e0]
  rw [h1, h2]
  decide
